import Mathlib

/-!
Shallow embedding of `src/AA274A_HW4/particle_filter.py` (particle-filter
Monte Carlo localization) and verification of its specification claims.

Machine floats are modelled as exact numbers: the resampler (which uses only
field and order operations) is embedded over `ℚ` so that it stays executable,
while the trigonometric components (transition model, angle utilities,
measurement prediction, association) are embedded over `ℝ`.
-/

open Real

/-! ### Resampler: `ParticleFilter.resample`

The python code is
```
s = np.sum(ws)
m = np.arange(self.M)
u = s * (r + (m/float(self.M)))
c = np.cumsum(ws)
inds = np.searchsorted(c,u)
self.xs = xs[inds]
self.ws = ws[inds]
```
with `r = np.random.rand() / self.M`, i.e. `r` uniform in `[0, 1/M)`.
`np.cumsum ws` is the list of partial sums `C_k = ws[0] + ... + ws[k]`.
`np.searchsorted c v` (side `left`, its default) on a sorted `c` returns the
insertion point of `v`, i.e. the smallest index `k` with `v ≤ c[k]`, and
`c.length` when there is none; on the sorted cumulative sums produced from
non-negative weights this is exactly `List.findIdx (v ≤ ·)`. -/

/-- `np.cumsum`: partial sums of a list, `(cumsum ws)[k] = (ws.take (k+1)).sum`. -/
def cumsum (ws : List ℚ) : List ℚ :=
  (List.range ws.length).map (fun k => (ws.take (k + 1)).sum)

/-- `np.searchsorted c v` (side `left`) on a sorted list `c`: the smallest
index `k` with `v ≤ c[k]`, or `c.length` if no entry is `≥ v`. -/
def searchsorted (c : List ℚ) (v : ℚ) : ℕ :=
  c.findIdx (fun x => decide (v ≤ x))

/-- `ParticleFilter.resample`, with the random offset `r` (drawn by the code
uniformly from `[0, 1/M)`) passed explicitly.  The particle type is abstract
(`α`): the resampler only selects rows, it never inspects them.  `self.M` is
the particle count, i.e. `xs.length` at every call site.  Out-of-range
indexing (which numpy would fault on) is modelled by `List.getD` with a
default; the in-bounds theorems below show the default is never taken under
the documented preconditions. -/
def resample [Inhabited α] (xs : List α) (ws : List ℚ) (r : ℚ) :
    List α × List ℚ :=
  let M := xs.length
  let s := ws.sum
  let u := (List.range M).map (fun (m : ℕ) => s * (r + (m : ℚ) / (M : ℚ)))
  let c := cumsum ws
  let inds := u.map (fun v => searchsorted c v)
  (inds.map (fun i => xs.getD i default), inds.map (fun i => ws.getD i 0))

/-- Modelled from the spec: the spec's §4.4/§7 degenerate-weights policy,
which the source file does not implement — "if S = 0 (all weights zero/NaN)
... the implementation must define an explicit fallback (e.g., treat as
uniform weights for this resample only)".  Used only to compare the actual
`resample` against the spec's claimed fallback behaviour. -/
def resample_uniform_fallback [Inhabited α] (xs : List α) (ws : List ℚ)
    (r : ℚ) : List α × List ℚ :=
  if ws.sum = 0 then
    resample xs (List.replicate ws.length (1 / (ws.length : ℚ))) r
  else
    resample xs ws r

/-! ### Particle poses and the estimator `ParticleFilter.x`

A particle is a pose `(x, y, θ)` with unconstrained real heading.  Weights
are likelihood values; the estimator only compares them for equality with
the maximum, so they are kept in `ℚ` (exact numbers standing for the float
weights) while the pose coordinates live in `ℝ`. -/

structure Pose where
  x : ℝ
  y : ℝ
  th : ℝ

instance : Inhabited Pose := ⟨⟨0, 0, 0⟩⟩

/-- `np.arctan2 y x`, realised as the argument of the complex number
`x + y·i`; like numpy's it takes values in `(−π, π]` with `atan2 0 0 = 0`. -/
noncomputable def atan2 (y x : ℝ) : ℝ :=
  Complex.arg (x + y * Complex.I)

/-- The estimator property `ParticleFilter.x`:
```
idx = self.ws == self.ws.max()
x[:2] = self.xs[idx,:2].mean(axis=0)
th = self.xs[idx,2]
x[2] = np.arctan2(np.sin(th).mean(), np.cos(th).mean())
```
The boolean mask `idx` selects the particles whose weight equals the
maximum weight (`max_weight_particles` below is the slice `self.xs[idx]`);
`mean` is sum over the selected particles divided by how many were
selected. -/
noncomputable def max_weight_particles (xs : List Pose) (ws : List ℚ) :
    List Pose :=
  ((xs.zip ws).filter (fun p => decide (p.2 = ws.max?.getD 0))).map Prod.fst

/-- The estimator property `ParticleFilter.x`: position is the mean of the
maximal-weight particles' `(x, y)`, heading is
`arctan2(mean sin θ, mean cos θ)` over the same particles. -/
noncomputable def pf_x (xs : List Pose) (ws : List ℚ) : Pose :=
  let sel := max_weight_particles xs ws
  let n : ℝ := sel.length
  { x := (sel.map Pose.x).sum / n
    y := (sel.map Pose.y).sum / n
    th := atan2 (((sel.map (fun p => Real.sin p.th)).sum) / n)
               (((sel.map (fun p => Real.cos p.th)).sum) / n) }

/-! ### Transition model: `MonteCarloLocalization.transition_model`

The python code partitions the particle indices by
`us[:,1] < EPSILON_OMEGA` versus `us[:,1] >= EPSILON_OMEGA` (a signed
comparison of the noisy angular velocity against `+ε`) and scatters the two
branch results back into the original index positions; since each
particle's branch depends only on that particle's own control, this equals
an element-wise map over (pose, control) pairs. -/

/-- `EPSILON_OMEGA = 1e-3` from the python module. -/
noncomputable def EPSILON_OMEGA : ℝ := 1 / 1000

/-- Per-particle unicycle dynamics of `transition_model`: control
`u = (v, ω)`; Branch A (trapezoidal) when `ω < ε`, Branch B (exact arc)
when `ω ≥ ε`. -/
noncomputable def transition_model_one (p : Pose) (u : ℝ × ℝ) (dt : ℝ) :
    Pose :=
  let th_t := p.th + u.2 * dt
  if u.2 < EPSILON_OMEGA then
    { x := p.x + u.1 * (Real.cos th_t + Real.cos p.th) / 2 * dt
      y := p.y + u.1 * (Real.sin th_t + Real.sin p.th) / 2 * dt
      th := th_t }
  else
    { x := p.x + u.1 / u.2 * (Real.sin th_t - Real.sin p.th)
      y := p.y - u.1 / u.2 * (Real.cos th_t - Real.cos p.th)
      th := th_t }

/-- `transition_model` over the whole particle set: result `i` is the
propagated particle `i` (the index-partitioned numpy writes preserve the
original positions). -/
noncomputable def transition_model (xs : List Pose) (us : List (ℝ × ℝ))
    (dt : ℝ) : List Pose :=
  (xs.zip us).map (fun p => transition_model_one p.1 p.2 dt)

/-! ### Angle utilities -/

/-- Python's float modulo `a % m` for `m > 0`: `a - m * ⌊a / m⌋`. -/
noncomputable def fmod (a m : ℝ) : ℝ :=
  a - m * ⌊a / m⌋

/-- `angle_diff` from `compute_innovations` (scalar branch):
```
a = a % (2*pi); b = b % (2*pi); diff = a - b
if abs(a - b) > pi: diff += (2*(diff < 0) - 1) * 2*pi
```
i.e. add `2π` when `diff < 0`, subtract `2π` otherwise. -/
noncomputable def angle_diff (a b : ℝ) : ℝ :=
  if |fmod a (2 * π) - fmod b (2 * π)| > π then
    (if fmod a (2 * π) - fmod b (2 * π) < 0 then
      fmod a (2 * π) - fmod b (2 * π) + 2 * π
    else
      fmod a (2 * π) - fmod b (2 * π) - 2 * π)
  else
    fmod a (2 * π) - fmod b (2 * π)

/-! ### Measurement prediction:
`compute_predicted_measurements` and its helper
`vectorized_normalize_line_parameters` -/

/-- `vectorized_normalize_line_parameters` applied to one `(alpha, r)`
column: if the range is negative, add `π` to the angle and flip the sign of
the range; then wrap the angle by `(alpha + π) % (2π) − π`. -/
noncomputable def normalize_line_parameters (h : ℝ × ℝ) : ℝ × ℝ :=
  let h1 := if h.2 < 0 then (h.1 + π, -h.2) else h
  (fmod (h1.1 + π) (2 * π) - π, h1.2)

/-- The body of `vectorized_transform_line_to_scanner_frame` for one
particle `p` and one map line `(alpha, r)`, before normalization:
```
rot_b_to_w = [[cos th, -sin th, x], [sin th, cos th, y], [0,0,1]]
cam_w = rot_b_to_w @ [x_cam_b, y_cam_b, 1];  cam_w[2] = th_cam_b + th
alpha_cam = alpha - cam_w[2]
alpha_l = alpha - arctan2(cam_w[1], cam_w[0])
r_cam = r - sqrt(cam_w[0]^2 + cam_w[1]^2) * cos(alpha_l)
```
`tf` is `self.tf_base_to_camera`. -/
noncomputable def transform_line_to_scanner_frame (p : Pose) (tf : Pose)
    (line : ℝ × ℝ) : ℝ × ℝ :=
  let camx := Real.cos p.th * tf.x - Real.sin p.th * tf.y + p.x
  let camy := Real.sin p.th * tf.x + Real.cos p.th * tf.y + p.y
  let camth := tf.th + p.th
  let alpha_cam := line.1 - camth
  let alpha_l := line.1 - atan2 camy camx
  let r_cam := line.2 - Real.sqrt (camx ^ 2 + camy ^ 2) * Real.cos alpha_l
  (alpha_cam, r_cam)

/-- One entry `hs[m, :, j]` of `compute_predicted_measurements`: transform
map line `j` into particle `m`'s scanner frame, then normalize. -/
noncomputable def predicted_measurement (p : Pose) (tf : Pose)
    (line : ℝ × ℝ) : ℝ × ℝ :=
  normalize_line_parameters (transform_line_to_scanner_frame p tf line)

/-- `compute_predicted_measurements`: the `M × J` table of predicted
`(alpha, r)` line parameters, one row (over the `J` map lines) per
particle. -/
noncomputable def compute_predicted_measurements (xs : List Pose)
    (map_lines : List (ℝ × ℝ)) (tf : Pose) : List (List (ℝ × ℝ)) :=
  xs.map (fun p => map_lines.map (fun line => predicted_measurement p tf line))

/-! ### Association: `compute_innovations` -/

/-- A 2×2 real matrix, row major: entries `a b / c d`. -/
structure Mat2 where
  a : ℝ
  b : ℝ
  c : ℝ
  d : ℝ

/-- `np.linalg.inv` of a 2×2 matrix (adjugate over determinant; numpy
raises on a singular input, so claims using this carry a nonzero
determinant hypothesis where the value matters). -/
noncomputable def inv2 (Q : Mat2) : Mat2 :=
  let det := Q.a * Q.d - Q.b * Q.c
  ⟨Q.d / det, -Q.b / det, -Q.c / det, Q.a / det⟩

/-- Mahalanobis quadratic form `vᵀ · Qinv · v`. -/
noncomputable def mahal (Qinv : Mat2) (v : ℝ × ℝ) : ℝ :=
  v.1 * (Qinv.a * v.1 + Qinv.b * v.2) + v.2 * (Qinv.c * v.1 + Qinv.d * v.2)

/-- The candidate innovation of `compute_innovations` for observed line `z`
against predicted line `h`:
`v_ij_temp = (angle_diff(z[0], hs[m,0,jj]), z[1] - hs[m,1,jj])`. -/
noncomputable def innovation (z h : ℝ × ℝ) : ℝ × ℝ :=
  (angle_diff z.1 h.1, z.2 - h.2)

/-- One step of the inner `jj` loop of `compute_innovations`: keep the
stored `(d_ij_min, v_ij)` unless the new candidate's Mahalanobis distance
is strictly smaller.  `none` models the initial `d_ij_min = inf` state (the
first candidate always wins against `inf`). -/
noncomputable def select_step (z : ℝ × ℝ) (Qinv : Mat2)
    (acc : Option (ℝ × (ℝ × ℝ))) (h : ℝ × ℝ) : Option (ℝ × (ℝ × ℝ)) :=
  let v := innovation z h
  let d := mahal Qinv v
  match acc with
  | none => some (d, v)
  | some best => if d < best.1 then some (d, v) else some best

/-- The retained innovation for one (particle, observed feature) pair: the
`jj` loop over the particle's `J` predicted lines `hsrow`, minimizing
`vᵀ·inv(Q)·v` where `Q` is that observation's own covariance.  The
validation gate `g` (`self.g`) is accepted — as in the class constructor —
but never used.  If `hsrow` is empty the initialized `v_ij = (0,0)` row
survives, as in the code. -/
noncomputable def select_innovation (g : ℝ) (z : ℝ × ℝ) (Q : Mat2)
    (hsrow : List (ℝ × ℝ)) : ℝ × ℝ :=
  ((hsrow.foldl (select_step z (inv2 Q)) none).map Prod.snd).getD (0, 0)

/-- `compute_innovations`: for each particle, the `2I` innovation row
obtained by concatenating, over the `I` observed lines (with their own
covariances), the retained innovation pair — the `[M, I, 2] → [M, 2I]`
reshape of the code. -/
noncomputable def compute_innovations (xs : List Pose)
    (map_lines : List (ℝ × ℝ)) (tf : Pose) (g : ℝ) (zs : List (ℝ × ℝ))
    (Qs : List Mat2) : List (List ℝ) :=
  (compute_predicted_measurements xs map_lines tf).map (fun hsrow =>
    (zs.zip Qs).flatMap (fun zQ =>
      let v := select_innovation g zQ.1 zQ.2 hsrow
      [v.1, v.2]))

/-! ### Filter state and the mutating entry points -/

/-- The `ParticleFilter` object state: particle count `M` (fixed at
construction), particle set `xs`, weights `ws`, control noise covariance
`R`. -/
structure PFState where
  M : ℕ
  xs : List Pose
  ws : List ℚ
  R : Mat2

/-- `ParticleFilter.__init__`: `M = x0.shape[0]`, poses `x0`, weights
uniform `1/M`. -/
noncomputable def pf_init (x0 : List Pose) (R : Mat2) : PFState :=
  { M := x0.length
    xs := x0
    ws := List.replicate x0.length (1 / (x0.length : ℚ))
    R := R }

/-- `ParticleFilter.transition_update`: draw `M` noisy controls (passed
here explicitly as `us`, one per particle, since the multivariate-normal
draw is randomness external to the deterministic semantics) and replace the
whole pose array by `transition_model`. -/
noncomputable def transition_update (st : PFState) (us : List (ℝ × ℝ))
    (dt : ℝ) : PFState :=
  { st with xs := transition_model st.xs us dt }

/-- The state mutation performed at the end of `ParticleFilter.resample`:
`self.xs, self.ws = xs[inds], ws[inds]`. -/
noncomputable def resample_update (st : PFState) (xs : List Pose)
    (ws : List ℚ) (r : ℚ) : PFState :=
  { st with
    xs := (resample xs ws r).1
    ws := (resample xs ws r).2 }

/-- `MonteCarloLocalization.measurement_update`: weights are the rows of
`compute_innovations` scored by the multivariate normal density (scipy
library code external to this repository, abstracted as the per-row map
`pdf` — only the fact that it yields one scalar per row matters to the
claims below), followed by `self.resample(xs, ws)` on a copy of the current
poses. -/
noncomputable def measurement_update (st : PFState)
    (map_lines : List (ℝ × ℝ)) (tf : Pose) (g : ℝ) (zs : List (ℝ × ℝ))
    (Qs : List Mat2) (pdf : List ℝ → ℚ) (r : ℚ) : PFState :=
  let vs := compute_innovations st.xs map_lines tf g zs Qs
  let ws := vs.map pdf
  resample_update st st.xs ws r

/-! ## Helper lemmas -/

theorem Pose.eq_iff (p q : Pose) :
    p = q ↔ p.x = q.x ∧ p.y = q.y ∧ p.th = q.th := by
  cases p
  cases q
  simp

theorem cumsum_length (ws : List ℚ) : (cumsum ws).length = ws.length := by
  simp [cumsum]

theorem sum_mem_cumsum (ws : List ℚ) (hne : ws ≠ []) : ws.sum ∈ cumsum ws := by
  have hn : 0 < ws.length := List.length_pos.mpr hne
  refine List.mem_map.mpr ⟨ws.length - 1, ?_, ?_⟩
  · exact List.mem_range.mpr (Nat.sub_lt hn one_pos)
  · rw [Nat.sub_add_cancel hn, List.take_length]

theorem searchsorted_lt_of_le_sum (ws : List ℚ) (v : ℚ) (hne : ws ≠ [])
    (hv : v ≤ ws.sum) : searchsorted (cumsum ws) v < ws.length := by
  rw [← cumsum_length ws]
  exact List.findIdx_lt_length_of_exists
    ⟨ws.sum, sum_mem_cumsum ws hne, by simpa using hv⟩

theorem target_lt_one (r : ℚ) (m M : ℕ) (hm : m < M) (hr1 : r * M < 1) :
    r + (m : ℚ) / (M : ℚ) < 1 := by
  have hMpos : (0 : ℚ) < (M : ℚ) := by
    exact_mod_cast (Nat.zero_le m).trans_lt hm
  have hm1 : (m : ℚ) + 1 ≤ (M : ℚ) := by exact_mod_cast hm
  have hdiv : (m : ℚ) / (M : ℚ) * (M : ℚ) = (m : ℚ) :=
    div_mul_cancel₀ _ (ne_of_gt hMpos)
  have h3 : (r + (m : ℚ) / (M : ℚ)) * (M : ℚ) < 1 * (M : ℚ) := by
    rw [add_mul, hdiv, one_mul]
    linarith
  exact lt_of_mul_lt_mul_right h3 (le_of_lt hMpos)

theorem target_le_sum (ws : List ℚ) (r : ℚ) (m M : ℕ) (hm : m < M)
    (hnn : ∀ w ∈ ws, 0 ≤ w) (hr1 : r * M < 1) :
    ws.sum * (r + (m : ℚ) / (M : ℚ)) ≤ ws.sum := by
  have hS : 0 ≤ ws.sum := List.sum_nonneg hnn
  have ht := target_lt_one r m M hm hr1
  calc ws.sum * (r + (m : ℚ) / (M : ℚ)) ≤ ws.sum * 1 :=
        mul_le_mul_of_nonneg_left (le_of_lt ht) hS
    _ = ws.sum := mul_one _

theorem range_map_getD {β : Type} (n k : ℕ) (F : ℕ → β) (d : β)
    (hk : k < n) : ((List.range n).map F).getD k d = F k := by
  rw [List.getD_eq_getElem?_getD, List.getElem?_map, List.getElem?_range hk]
  rfl

theorem resample_eq {α : Type} [Inhabited α] (xs : List α) (ws : List ℚ)
    (r : ℚ) :
    resample xs ws r =
      ((List.range xs.length).map (fun (m : ℕ) =>
          xs.getD
            (searchsorted (cumsum ws)
              (ws.sum * (r + (m : ℚ) / (xs.length : ℚ)))) default),
       (List.range xs.length).map (fun (m : ℕ) =>
          ws.getD
            (searchsorted (cumsum ws)
              (ws.sum * (r + (m : ℚ) / (xs.length : ℚ)))) 0)) := by
  simp only [resample, List.map_map]
  rfl

theorem resample_fst_getD {α : Type} [Inhabited α] (xs : List α)
    (ws : List ℚ) (r : ℚ) (k : ℕ) (hk : k < xs.length) :
    (resample xs ws r).1.getD k default =
      xs.getD
        (searchsorted (cumsum ws) (ws.sum * (r + (k : ℚ) / (xs.length : ℚ))))
        default := by
  rw [resample_eq]
  exact range_map_getD _ _ _ _ hk

theorem resample_snd_getD {α : Type} [Inhabited α] (xs : List α)
    (ws : List ℚ) (r : ℚ) (k : ℕ) (hk : k < xs.length) :
    (resample xs ws r).2.getD k 0 =
      ws.getD
        (searchsorted (cumsum ws) (ws.sum * (r + (k : ℚ) / (xs.length : ℚ))))
        0 := by
  rw [resample_eq]
  exact range_map_getD _ _ _ _ hk

/-! ## Claims -/

/-- Claim C1: for every call of `resample` with `M` poses and `M`
non-negative weights (and the offset `r` in `[0, 1/M)` the code draws),
the output pose list has length exactly `M`, every output pose equals by
value some row of the input pose list, and every output weight equals the
pre-resampling input weight at the same selected index — weights are not
reset to uniform. -/
theorem C1_resample_selection {α : Type} [Inhabited α] (xs : List α)
    (ws : List ℚ) (r : ℚ) (hlen : ws.length = xs.length)
    (hnn : ∀ w ∈ ws, 0 ≤ w) (hr0 : 0 ≤ r) (hr1 : r * xs.length < 1) :
    (resample xs ws r).1.length = xs.length ∧
    (resample xs ws r).2.length = xs.length ∧
    ∀ k, k < xs.length → ∃ i, i < xs.length ∧
      (resample xs ws r).1.getD k default = xs.getD i default ∧
      (resample xs ws r).2.getD k 0 = ws.getD i 0 := by
  refine ⟨by rw [resample_eq]; simp, by rw [resample_eq]; simp, ?_⟩
  intro k hk
  have hws : ws ≠ [] := by
    intro h
    rw [h] at hlen
    simp at hlen
    omega
  refine ⟨searchsorted (cumsum ws) (ws.sum * (r + (k : ℚ) / (xs.length : ℚ))),
    ?_, resample_fst_getD xs ws r k hk, resample_snd_getD xs ws r k hk⟩
  exact lt_of_lt_of_le
    (searchsorted_lt_of_le_sum ws _ hws
      (target_le_sum ws r k xs.length hk hnn hr1))
    (le_of_eq hlen)

/-- Witness for C1 at a concrete input: two particles, weights
`[1/4, 3/4]`, offset `r = 1/4 ∈ [0, 1/2)`. -/
theorem C1_resample_selection_witness :
    (([ (1:ℚ), (3:ℚ) ].length = [(10:ℕ), 20].length) ∧ (0:ℚ) ≤ 1/4) ∧
    ((resample [(10:ℕ), 20] [1, 3] (1/4)).1.length = 2 ∧
     (resample [(10:ℕ), 20] [1, 3] (1/4)).2.length = 2 ∧
     ∀ k, k < [(10:ℕ), 20].length → ∃ i, i < [(10:ℕ), 20].length ∧
       (resample [(10:ℕ), 20] [1, 3] (1/4)).1.getD k default =
         [(10:ℕ), 20].getD i default ∧
       (resample [(10:ℕ), 20] [1, 3] (1/4)).2.getD k 0 =
         ([1, 3] : List ℚ).getD i 0) := by
  refine ⟨⟨rfl, by norm_num⟩, ?_⟩
  exact C1_resample_selection [(10:ℕ), 20] [1, 3] (1/4) rfl
    (by norm_num) (by norm_num) (by norm_num)

/-- Claim C9: with `M ≥ 1` non-negative weights of strictly positive sum
`S` and offset `r ∈ [0, 1/M)`, the largest target value
`S·(r + (M−1)/M)` is strictly below the final cumulative sum `S`, and
every index produced by the cumulative-sum search lies in `[0, M−1]`, so
the selections into the pose and weight arrays are in bounds. -/
theorem C9_resample_indices_in_bounds (ws : List ℚ) (r : ℚ) (M : ℕ)
    (hM : M = ws.length) (hM1 : 1 ≤ M) (hnn : ∀ w ∈ ws, 0 ≤ w)
    (hS : 0 < ws.sum) (hr0 : 0 ≤ r) (hr1 : r * M < 1) :
    ws.sum * (r + ((M : ℚ) - 1) / (M : ℚ)) < ws.sum ∧
    ∀ m, m < M →
      searchsorted (cumsum ws) (ws.sum * (r + (m : ℚ) / (M : ℚ))) ≤ M - 1 := by
  have hws : ws ≠ [] := by
    intro h
    rw [h] at hM
    simp at hM
    omega
  constructor
  · have hcast : ((M : ℚ) - 1) = ((M - 1 : ℕ) : ℚ) := by
      have : ((M - 1 : ℕ) : ℚ) + 1 = (M : ℚ) := by
        have := Nat.sub_add_cancel hM1
        exact_mod_cast congrArg (Nat.cast : ℕ → ℚ) this
      linarith
    rw [hcast]
    have ht := target_lt_one r (M - 1) M (by omega) hr1
    calc ws.sum * (r + ((M - 1 : ℕ) : ℚ) / (M : ℚ)) < ws.sum * 1 :=
          (mul_lt_mul_left hS).mpr ht
      _ = ws.sum := mul_one _
  · intro m hm
    have hb := searchsorted_lt_of_le_sum ws
      (ws.sum * (r + (m : ℚ) / (M : ℚ))) hws
      (target_le_sum ws r m M hm hnn hr1)
    omega

/-- Witness for C9: `M = 2`, weights `[1, 1]`, offset `r = 1/4`. -/
theorem C9_resample_indices_in_bounds_witness :
    ((2 = ([1, 1] : List ℚ).length) ∧ (0 : ℚ) < ([1, 1] : List ℚ).sum ∧
      (0 : ℚ) ≤ 1/4 ∧ (1/4 : ℚ) * ((2 : ℕ) : ℚ) < 1) ∧
    (([1, 1] : List ℚ).sum * (1/4 + (((2 : ℕ) : ℚ) - 1) / ((2 : ℕ) : ℚ)) <
        ([1, 1] : List ℚ).sum ∧
     ∀ m : ℕ, m < 2 →
       searchsorted (cumsum [1, 1])
         (([1, 1] : List ℚ).sum * (1/4 + (m : ℚ) / ((2 : ℕ) : ℚ))) ≤ 2 - 1) := by
  refine ⟨⟨rfl, by norm_num, by norm_num, by norm_num⟩, ?_⟩
  exact C9_resample_indices_in_bounds [1, 1] (1/4) 2 rfl (by norm_num)
    (by norm_num) (by norm_num) (by norm_num) (by norm_num)

/-- Claim C2 counterexample: with `M = 5`, weights `[0,0,1,0,0]` and
offset `r = 0`, the first target value is `u₀ = 0` and the left
binary search returns index 0 (`C₀ = 0 ≥ 0`), not index 2: the resampled
output is `([p₀, p₂, p₂, p₂, p₂], [0, 1, 1, 1, 1])`, so not every output
pose and weight equals the input at index 2. -/
theorem C2_counterexample :
    resample [(10 : ℕ), 11, 12, 13, 14] ([0, 0, 1, 0, 0] : List ℚ) 0 ≠
      ([12, 12, 12, 12, 12], [1, 1, 1, 1, 1]) := by
  norm_num [resample, cumsum, searchsorted, List.range_succ,
    List.findIdx_cons]

/-- Claim C2 as amended: with `M = 5`, weights `[0,0,1,0,0]` and offset
`r = 0`, the selected indices are `[0, 2, 2, 2, 2]`: outputs 1–4 equal the
input pose and weight at index 2, while output 0 equals the input pose and
weight at index 0 (the smallest `k` with `C_k ≥ u₀ = 0` is `k = 0` because
`C₀ = 0`). -/
theorem C2_amended {α : Type} [Inhabited α] (p0 p1 p2 p3 p4 : α) :
    resample [p0, p1, p2, p3, p4] ([0, 0, 1, 0, 0] : List ℚ) 0 =
      ([p0, p2, p2, p2, p2], [0, 1, 1, 1, 1]) := by
  norm_num [resample, cumsum, searchsorted, List.range_succ,
    List.findIdx_cons]

theorem searchsorted_zero_of_all_zero (ws : List ℚ) (hzero : ∀ w ∈ ws, w = 0)
    (hne : ws ≠ []) : searchsorted (cumsum ws) 0 = 0 := by
  obtain ⟨w, t, rfl⟩ := List.exists_cons_of_ne_nil hne
  have hw : w = 0 := hzero w (by simp)
  simp [searchsorted, cumsum, List.range_succ_eq_map, List.findIdx_cons, hw]

/-- Claim C3 counterexample: `resample` applies no degenerate-weights
fallback.  With poses `[0, 1]`, weights `[0, 0]` (sum `S = 0`) and offset
`r = 3/10`, the code returns `([0, 0], [0, 0])` — every selected index is
0, collapsing the particle set — while the spec's uniform-weight fallback
(`resample_uniform_fallback`, modelled from the spec) would return
`([0, 1], [1/2, 1/2])`. -/
theorem C3_counterexample :
    resample [(0 : ℕ), 1] ([0, 0] : List ℚ) (3/10) = ([0, 0], [0, 0]) ∧
    resample_uniform_fallback [(0 : ℕ), 1] ([0, 0] : List ℚ) (3/10) =
      ([0, 1], [1/2, 1/2]) ∧
    (resample [(0 : ℕ), 1] ([0, 0] : List ℚ) (3/10)).1 ≠
      (resample_uniform_fallback [(0 : ℕ), 1] ([0, 0] : List ℚ) (3/10)).1 := by
  refine ⟨?_, ?_, ?_⟩ <;>
    norm_num [resample_uniform_fallback, resample, cumsum, searchsorted,
      List.range_succ, List.findIdx_cons]

/-- Claim C3 as amended: when `resample` is called with all weights zero
(`S = 0`), no NaN is produced and the step does not abort — every target
value `u_m` is `0·(r + m/M) = 0` and the search returns index 0 — but no
explicit fallback is applied: the output is `M` copies of input particle 0
with `M` zero weights (the particle set silently collapses instead of
being treated as uniformly weighted). -/
theorem C3_amended {α : Type} [Inhabited α] (xs : List α) (ws : List ℚ)
    (r : ℚ) (hlen : ws.length = xs.length) (hzero : ∀ w ∈ ws, w = 0) :
    (resample xs ws r).1 = List.replicate xs.length (xs.getD 0 default) ∧
    (resample xs ws r).2 = List.replicate xs.length 0 := by
  have hsum : ws.sum = 0 := List.sum_eq_zero hzero
  rcases eq_or_ne xs [] with hxe | hxe
  · subst hxe
    rw [resample_eq]
    simp
  · have hws : ws ≠ [] := by
      intro h
      rw [h] at hlen
      simp at hlen
      exact hxe (List.length_eq_zero.mp hlen.symm)
    constructor
    · refine List.eq_replicate_iff.mpr ⟨by rw [resample_eq]; simp, ?_⟩
      intro b hb
      rw [resample_eq] at hb
      simp only [List.mem_map, List.mem_range] at hb
      obtain ⟨m, hm, rfl⟩ := hb
      rw [hsum, zero_mul, searchsorted_zero_of_all_zero ws hzero hws]
    · refine List.eq_replicate_iff.mpr ⟨by rw [resample_eq]; simp, ?_⟩
      intro b hb
      rw [resample_eq] at hb
      simp only [List.mem_map, List.mem_range] at hb
      obtain ⟨m, hm, rfl⟩ := hb
      rw [hsum, zero_mul, searchsorted_zero_of_all_zero ws hzero hws]
      obtain ⟨w, t, rfl⟩ := List.exists_cons_of_ne_nil hws
      simpa using hzero w (by simp)

/-- Witness for C3 (amended) at a concrete input: poses `[5, 7]`, weights
`[0, 0]`, offset `r = 1/3`. -/
theorem C3_amended_witness :
    (([0, 0] : List ℚ).length = [(5 : ℕ), 7].length ∧
      ∀ w ∈ ([0, 0] : List ℚ), w = 0) ∧
    ((resample [(5 : ℕ), 7] ([0, 0] : List ℚ) (1/3)).1 =
        List.replicate 2 5 ∧
     (resample [(5 : ℕ), 7] ([0, 0] : List ℚ) (1/3)).2 =
        List.replicate 2 0) := by
  refine ⟨⟨rfl, by norm_num⟩, ?_⟩
  exact C3_amended [(5 : ℕ), 7] [0, 0] (1/3) rfl (by norm_num)

theorem fmod_nonneg (a m : ℝ) (hm : 0 < m) : 0 ≤ fmod a m := by
  have h : fmod a m = m * Int.fract (a / m) := by
    rw [fmod, Int.fract, mul_sub, mul_div_cancel₀ a (ne_of_gt hm)]
  rw [h]
  exact mul_nonneg hm.le (Int.fract_nonneg _)

theorem fmod_lt (a m : ℝ) (hm : 0 < m) : fmod a m < m := by
  have h : fmod a m = m * Int.fract (a / m) := by
    rw [fmod, Int.fract, mul_sub, mul_div_cancel₀ a (ne_of_gt hm)]
  rw [h]
  calc m * Int.fract (a / m) < m * 1 :=
        (mul_lt_mul_left hm).mpr (Int.fract_lt_one _)
    _ = m := mul_one m

/-- Claim C7 counterexample: `angle_diff 0 π = -π`, which is outside the
claimed half-open interval `(−π, π]` (the code's `if` uses a strict
`> π` test, so a reduced difference of exactly `−π` is returned as is). -/
theorem C7_counterexample :
    angle_diff 0 π = -π ∧ angle_diff 0 π ∉ Set.Ioc (-π) π := by
  have h0 : fmod 0 (2 * π) = 0 := by
    unfold fmod
    norm_num
  have hpm : fmod π (2 * π) = π := by
    unfold fmod
    have h12 : π / (2 * π) = 1 / 2 := by
      rw [div_eq_div_iff (ne_of_gt Real.two_pi_pos) two_ne_zero]
      ring
    have hfl : ⌊(1 / 2 : ℝ)⌋ = 0 := by
      rw [Int.floor_eq_zero_iff]
      constructor <;> norm_num
    rw [h12, hfl]
    norm_num
  have hval : angle_diff 0 π = -π := by
    unfold angle_diff
    rw [h0, hpm]
    have habs : |(0 : ℝ) - π| = π := by
      rw [zero_sub, abs_neg, abs_of_nonneg Real.pi_pos.le]
    rw [if_neg]
    · ring
    · rw [habs]
      exact lt_irrefl π
  refine ⟨hval, ?_⟩
  rw [hval]
  simp [Set.mem_Ioc]

/-- Claim C7 as amended: for all real `a` and `b`,
`angle_diff a b = -angle_diff b a`, and the result lies in the closed
interval `[−π, π]` (both endpoints attainable: the value `−π` occurs,
e.g. at `(0, π)`, so the half-open `(−π, π]` of the claim is not
guaranteed). -/
theorem C7_amended (a b : ℝ) :
    angle_diff a b = -angle_diff b a ∧
    -π ≤ angle_diff a b ∧ angle_diff a b ≤ π := by
  have h2pi : (0 : ℝ) < 2 * π := Real.two_pi_pos
  have hA0 := fmod_nonneg a _ h2pi
  have hA2 := fmod_lt a _ h2pi
  have hB0 := fmod_nonneg b _ h2pi
  have hB2 := fmod_lt b _ h2pi
  have hpi := Real.pi_pos
  unfold angle_diff
  set A := fmod a (2 * π) with hA
  set B := fmod b (2 * π) with hB
  constructor
  · rw [abs_sub_comm B A]
    split_ifs with h1 h2 h3 h3
    · rcases lt_abs.mp h1 with h | h
      · linarith
      · linarith
    · ring
    · ring
    · have hAB : A - B = 0 := by
        push_neg at h2 h3
        linarith
      rw [hAB] at h1
      simp at h1
      linarith
    · ring
  · split_ifs with h1 h2
    · rcases lt_abs.mp h1 with h | h
      · constructor <;> linarith
      · constructor <;> linarith
    · rcases lt_abs.mp h1 with h | h
      · constructor <;> linarith
      · constructor <;> linarith
    · have := abs_le.mp (not_lt.mp h1)
      constructor <;> linarith

theorem normalize_fst_range (h : ℝ × ℝ) :
    -π ≤ (normalize_line_parameters h).1 ∧
    (normalize_line_parameters h).1 < π := by
  unfold normalize_line_parameters
  dsimp only
  have h1 := fmod_nonneg ((if h.2 < 0 then (h.1 + π, -h.2) else h).1 + π) _
    Real.two_pi_pos
  have h2 := fmod_lt ((if h.2 < 0 then (h.1 + π, -h.2) else h).1 + π) _
    Real.two_pi_pos
  constructor <;> linarith

/-- Claim C8 counterexample: for the particle at the origin with identity
camera extrinsic and map line `(π, 1)`, the predicted measurement is
`(−π, 1)`: the wrapped angle is exactly `−π`, which is outside the claimed
half-open interval `(−π, π]` (the code wraps with `(x + π) % 2π − π`,
whose range is `[−π, π)`). -/
theorem C8_counterexample :
    (predicted_measurement ⟨0, 0, 0⟩ ⟨0, 0, 0⟩ (π, 1)).1 = -π ∧
    (predicted_measurement ⟨0, 0, 0⟩ ⟨0, 0, 0⟩ (π, 1)).1 ∉
      Set.Ioc (-π) π := by
  have htrans :
      transform_line_to_scanner_frame ⟨0, 0, 0⟩ ⟨0, 0, 0⟩ (π, 1) = (π, 1) := by
    unfold transform_line_to_scanner_frame atan2
    norm_num [Complex.arg_zero]
  have hfm : fmod (π + π) (2 * π) = 0 := by
    unfold fmod
    have hdiv : (π + π) / (2 * π) = 1 := by
      field_simp
      ring
    rw [hdiv]
    simp
    ring
  have hval : (predicted_measurement ⟨0, 0, 0⟩ ⟨0, 0, 0⟩ (π, 1)).1 = -π := by
    unfold predicted_measurement
    rw [htrans]
    unfold normalize_line_parameters
    rw [if_neg (by norm_num)]
    dsimp only
    rw [hfm]
    ring
  refine ⟨hval, ?_⟩
  rw [hval]
  simp [Set.mem_Ioc]

/-- Claim C8 as amended: the predicted measurement is canonicalized — if
the transformed range is negative, its sign is flipped and `π` is added to
the angle before the final wrap (and a non-negative range is kept as is) —
but the final angle lies in the half-open interval `[−π, π)`, not
`(−π, π]`: it can equal `−π` and never equals `π`. -/
theorem C8_amended (p tf : Pose) (line : ℝ × ℝ) (h : ℝ × ℝ) :
    (h.2 < 0 →
      normalize_line_parameters h =
        (fmod ((h.1 + π) + π) (2 * π) - π, -h.2)) ∧
    (0 ≤ h.2 →
      normalize_line_parameters h = (fmod (h.1 + π) (2 * π) - π, h.2)) ∧
    -π ≤ (predicted_measurement p tf line).1 ∧
    (predicted_measurement p tf line).1 < π := by
  refine ⟨?_, ?_, (normalize_fst_range _).1, (normalize_fst_range _).2⟩
  · intro hneg
    unfold normalize_line_parameters
    rw [if_pos hneg]
  · intro hpos
    unfold normalize_line_parameters
    rw [if_neg (not_lt.mpr hpos)]

/-- Witness for C8 (amended): the flip branch at `h = (0, −1)` and the
angle range at the origin pose with map line `(0, 1)`. -/
theorem C8_amended_witness :
    ((-1 : ℝ) < 0 ∧ (0 : ℝ) ≤ 1) ∧
    (normalize_line_parameters ((0 : ℝ), (-1 : ℝ)) =
        (fmod ((0 + π) + π) (2 * π) - π, -(-1 : ℝ)) ∧
     normalize_line_parameters ((0 : ℝ), (1 : ℝ)) =
        (fmod (0 + π) (2 * π) - π, (1 : ℝ)) ∧
     -π ≤ (predicted_measurement ⟨0, 0, 0⟩ ⟨0, 0, 0⟩ (0, 1)).1 ∧
     (predicted_measurement ⟨0, 0, 0⟩ ⟨0, 0, 0⟩ (0, 1)).1 < π) := by
  refine ⟨⟨by norm_num, by norm_num⟩, ?_, ?_, ?_, ?_⟩
  · exact (C8_amended ⟨0, 0, 0⟩ ⟨0, 0, 0⟩ (0, 1) ((0 : ℝ), (-1 : ℝ))).1
      (by norm_num)
  · exact (C8_amended ⟨0, 0, 0⟩ ⟨0, 0, 0⟩ (0, 1) ((0 : ℝ), (1 : ℝ))).2.1
      (by norm_num)
  · exact (C8_amended ⟨0, 0, 0⟩ ⟨0, 0, 0⟩ ((0 : ℝ), (1 : ℝ)) (0, 1)).2.2.1
  · exact (C8_amended ⟨0, 0, 0⟩ ⟨0, 0, 0⟩ ((0 : ℝ), (1 : ℝ)) (0, 1)).2.2.2

theorem transition_model_getD (xs : List Pose) (us : List (ℝ × ℝ)) (dt : ℝ)
    (hlen : us.length = xs.length) (i : ℕ) (hi : i < xs.length) :
    (transition_model xs us dt).getD i default =
      transition_model_one (xs.getD i default) (us.getD i (0, 0)) dt := by
  have hiu : i < us.length := by omega
  simp only [transition_model, List.getD_eq_getElem?_getD, List.getElem?_map]
  rw [show xs.zip us = List.zipWith Prod.mk xs us from rfl,
    List.getElem?_zipWith, List.getElem?_eq_getElem hi,
    List.getElem?_eq_getElem hiu]
  simp [List.getElem?_eq_getElem, hi, hiu]

/-- Claim C5: `transition_model` computes `θ' = θ + ω·dt` for every
particle; when the signed noisy angular velocity `ω` is below
`ε = EPSILON_OMEGA` (including arbitrarily negative `ω`) Branch A gives
the trapezoidal update, when `ω ≥ ε` Branch B gives the exact-arc update;
the two branches partition all particles with no overlap and no omission;
and each result is written back to that particle's original index
position (output `i` is the propagation of input `i`). -/
theorem C5_transition_model (xs : List Pose) (us : List (ℝ × ℝ)) (dt : ℝ)
    (hlen : us.length = xs.length) :
    ((transition_model xs us dt).length = xs.length ∧
     ∀ i, i < xs.length →
       (transition_model xs us dt).getD i default =
         transition_model_one (xs.getD i default) (us.getD i (0, 0)) dt) ∧
    ∀ p : Pose, ∀ u : ℝ × ℝ,
      ((u.2 < EPSILON_OMEGA ∨ EPSILON_OMEGA ≤ u.2) ∧
       ¬(u.2 < EPSILON_OMEGA ∧ EPSILON_OMEGA ≤ u.2)) ∧
      (u.2 < EPSILON_OMEGA →
        transition_model_one p u dt =
          { x := p.x + u.1 * dt * (Real.cos p.th + Real.cos (p.th + u.2 * dt)) / 2
            y := p.y + u.1 * dt * (Real.sin p.th + Real.sin (p.th + u.2 * dt)) / 2
            th := p.th + u.2 * dt }) ∧
      (EPSILON_OMEGA ≤ u.2 →
        transition_model_one p u dt =
          { x := p.x + u.1 / u.2 * (Real.sin (p.th + u.2 * dt) - Real.sin p.th)
            y := p.y - u.1 / u.2 * (Real.cos (p.th + u.2 * dt) - Real.cos p.th)
            th := p.th + u.2 * dt }) := by
  refine ⟨⟨?_, fun i hi => transition_model_getD xs us dt hlen i hi⟩, ?_⟩
  · rw [transition_model, List.length_map, List.length_zip, hlen, min_self]
  · intro p u
    refine ⟨⟨lt_or_le u.2 EPSILON_OMEGA, fun hc => absurd hc.2 (not_le.mpr hc.1)⟩,
      ?_, ?_⟩
    · intro hA
      unfold transition_model_one
      rw [if_pos hA]
      rw [Pose.eq_iff]
      refine ⟨by ring, by ring, rfl⟩
    · intro hB
      unfold transition_model_one
      rw [if_neg (not_lt.mpr hB)]

/-- Witness for C5 at a concrete input: one particle at the origin,
control `(v, ω) = (1, 0)`, `dt = 1`. -/
theorem C5_transition_model_witness :
    ([((1 : ℝ), (0 : ℝ))].length = [(⟨0, 0, 0⟩ : Pose)].length) ∧
    (((transition_model [⟨0, 0, 0⟩] [((1 : ℝ), (0 : ℝ))] 1).length =
        [(⟨0, 0, 0⟩ : Pose)].length ∧
      ∀ i, i < [(⟨0, 0, 0⟩ : Pose)].length →
        (transition_model [⟨0, 0, 0⟩] [((1 : ℝ), (0 : ℝ))] 1).getD i default =
          transition_model_one ([(⟨0, 0, 0⟩ : Pose)].getD i default)
            ([((1 : ℝ), (0 : ℝ))].getD i (0, 0)) 1) ∧
     ∀ p : Pose, ∀ u : ℝ × ℝ,
       ((u.2 < EPSILON_OMEGA ∨ EPSILON_OMEGA ≤ u.2) ∧
        ¬(u.2 < EPSILON_OMEGA ∧ EPSILON_OMEGA ≤ u.2)) ∧
       (u.2 < EPSILON_OMEGA →
         transition_model_one p u 1 =
           { x := p.x + u.1 * 1 * (Real.cos p.th + Real.cos (p.th + u.2 * 1)) / 2
             y := p.y + u.1 * 1 * (Real.sin p.th + Real.sin (p.th + u.2 * 1)) / 2
             th := p.th + u.2 * 1 }) ∧
       (EPSILON_OMEGA ≤ u.2 →
         transition_model_one p u 1 =
           { x := p.x + u.1 / u.2 * (Real.sin (p.th + u.2 * 1) - Real.sin p.th)
             y := p.y - u.1 / u.2 * (Real.cos (p.th + u.2 * 1) - Real.cos p.th)
             th := p.th + u.2 * 1 })) :=
  ⟨rfl, C5_transition_model [⟨0, 0, 0⟩] [((1 : ℝ), (0 : ℝ))] 1 rfl⟩

theorem select_step_none (z : ℝ × ℝ) (Qinv : Mat2) (a : ℝ × ℝ) :
    select_step z Qinv none a =
      some (mahal Qinv (innovation z a), innovation z a) := rfl

theorem select_step_some (z : ℝ × ℝ) (Qinv : Mat2) (d0 : ℝ) (v0 a : ℝ × ℝ) :
    select_step z Qinv (some (d0, v0)) a =
      if mahal Qinv (innovation z a) < d0 then
        some (mahal Qinv (innovation z a), innovation z a)
      else some (d0, v0) := rfl

theorem select_fold_some (z : ℝ × ℝ) (Qinv : Mat2) (l : List (ℝ × ℝ)) :
    ∀ (d0 : ℝ) (v0 : ℝ × ℝ), d0 = mahal Qinv v0 →
    ∃ d v, l.foldl (select_step z Qinv) (some (d0, v0)) = some (d, v) ∧
      d = mahal Qinv v ∧
      (v = v0 ∨ v ∈ l.map (innovation z)) ∧
      d ≤ d0 ∧ ∀ h ∈ l, d ≤ mahal Qinv (innovation z h) := by
  induction l with
  | nil =>
    intro d0 v0 hd0
    exact ⟨d0, v0, rfl, hd0, Or.inl rfl, le_refl _, by simp⟩
  | cons a t ih =>
    intro d0 v0 hd0
    rw [List.foldl_cons, select_step_some]
    by_cases hlt : mahal Qinv (innovation z a) < d0
    · rw [if_pos hlt]
      obtain ⟨d, v, hfold, hdv, hmem, hle, hall⟩ :=
        ih (mahal Qinv (innovation z a)) (innovation z a) rfl
      refine ⟨d, v, hfold, hdv, ?_, hle.trans hlt.le, ?_⟩
      · rcases hmem with h | h
        · right
          rw [h]
          exact List.mem_map.mpr ⟨a, by simp, rfl⟩
        · right
          rw [List.map_cons]
          exact List.mem_cons_of_mem _ h
      · intro h hh
        rcases List.mem_cons.mp hh with rfl | hh
        · exact hle
        · exact hall h hh
    · rw [if_neg hlt]
      obtain ⟨d, v, hfold, hdv, hmem, hle, hall⟩ := ih d0 v0 hd0
      refine ⟨d, v, hfold, hdv, ?_, hle, ?_⟩
      · rcases hmem with h | h
        · exact Or.inl h
        · right
          rw [List.map_cons]
          exact List.mem_cons_of_mem _ h
      · intro h hh
        rcases List.mem_cons.mp hh with rfl | hh
        · exact hle.trans (not_lt.mp hlt)
        · exact hall h hh

/-- Claim C4: for every particle and every observed feature `z` with its
own covariance `Q`, the retained innovation of `compute_innovations` is
the candidate `(angle_diff(observed angle, predicted angle),
observed range − predicted range)` formed against one of the `J` predicted
features, minimizing the Mahalanobis distance `dᵗ·Q⁻¹·d`; the validation
gate `g` never rejects or down-weights any candidate (the selection is
independent of `g`); and the rows of `compute_innovations` are exactly
these per-(particle, observation) selections. -/
theorem C4_innovation_selection (g : ℝ) (z : ℝ × ℝ) (Q : Mat2)
    (hsrow : List (ℝ × ℝ)) (hne : hsrow ≠ []) :
    (select_innovation g z Q hsrow ∈ hsrow.map (innovation z) ∧
     ∀ h ∈ hsrow,
       mahal (inv2 Q) (select_innovation g z Q hsrow) ≤
         mahal (inv2 Q) (innovation z h)) ∧
    (∀ g1 g2 : ℝ,
      select_innovation g1 z Q hsrow = select_innovation g2 z Q hsrow) ∧
    ∀ (xs : List Pose) (map_lines : List (ℝ × ℝ)) (tf : Pose)
      (zs : List (ℝ × ℝ)) (Qs : List Mat2),
      compute_innovations xs map_lines tf g zs Qs =
        xs.map (fun p => (zs.zip Qs).flatMap (fun zQ =>
          let v := select_innovation g zQ.1 zQ.2
            (map_lines.map (predicted_measurement p tf))
          [v.1, v.2])) := by
  obtain ⟨a, t, rfl⟩ := List.exists_cons_of_ne_nil hne
  obtain ⟨d, v, hfold, hdv, hmem, hle, hall⟩ :=
    select_fold_some z (inv2 Q) t (mahal (inv2 Q) (innovation z a))
      (innovation z a) rfl
  have hsel : select_innovation g z Q (a :: t) = v := by
    unfold select_innovation
    rw [List.foldl_cons, select_step_none, hfold]
    rfl
  refine ⟨⟨?_, ?_⟩, fun g1 g2 => rfl, ?_⟩
  · rw [hsel, List.map_cons]
    rcases hmem with h | h
    · rw [h]
      exact List.mem_cons_self _ _
    · exact List.mem_cons_of_mem _ h
  · intro h hh
    rw [hsel, ← hdv]
    rcases List.mem_cons.mp hh with rfl | hh
    · exact hle
    · exact hall h hh
  · intro xs map_lines tf zs Qs
    simp [compute_innovations, compute_predicted_measurements, List.map_map]

/-- Witness for C4 at a concrete input: observation `z = (0, 1)` with
identity covariance against predicted rows `[(0, 2), (0, 1)]`. -/
theorem C4_innovation_selection_witness :
    ([((0 : ℝ), (2 : ℝ)), ((0 : ℝ), (1 : ℝ))] ≠ []) ∧
    ((select_innovation 0 ((0 : ℝ), (1 : ℝ)) ⟨1, 0, 0, 1⟩
        [((0 : ℝ), (2 : ℝ)), ((0 : ℝ), (1 : ℝ))] ∈
        [((0 : ℝ), (2 : ℝ)), ((0 : ℝ), (1 : ℝ))].map
          (innovation ((0 : ℝ), (1 : ℝ))) ∧
      ∀ h ∈ [((0 : ℝ), (2 : ℝ)), ((0 : ℝ), (1 : ℝ))],
        mahal (inv2 ⟨1, 0, 0, 1⟩)
          (select_innovation 0 ((0 : ℝ), (1 : ℝ)) ⟨1, 0, 0, 1⟩
            [((0 : ℝ), (2 : ℝ)), ((0 : ℝ), (1 : ℝ))]) ≤
          mahal (inv2 ⟨1, 0, 0, 1⟩) (innovation ((0 : ℝ), (1 : ℝ)) h)) ∧
     (∀ g1 g2 : ℝ,
       select_innovation g1 ((0 : ℝ), (1 : ℝ)) ⟨1, 0, 0, 1⟩
           [((0 : ℝ), (2 : ℝ)), ((0 : ℝ), (1 : ℝ))] =
         select_innovation g2 ((0 : ℝ), (1 : ℝ)) ⟨1, 0, 0, 1⟩
           [((0 : ℝ), (2 : ℝ)), ((0 : ℝ), (1 : ℝ))]) ∧
     ∀ (xs : List Pose) (map_lines : List (ℝ × ℝ)) (tf : Pose)
       (zs : List (ℝ × ℝ)) (Qs : List Mat2),
       compute_innovations xs map_lines tf 0 zs Qs =
         xs.map (fun p => (zs.zip Qs).flatMap (fun zQ =>
           let v := select_innovation 0 zQ.1 zQ.2
             (map_lines.map (predicted_measurement p tf))
           [v.1, v.2]))) :=
  ⟨by simp,
   C4_innovation_selection 0 ((0 : ℝ), (1 : ℝ)) ⟨1, 0, 0, 1⟩
     [((0 : ℝ), (2 : ℝ)), ((0 : ℝ), (1 : ℝ))] (by simp)⟩

theorem atan2_sin_cos (t : ℝ) (ht : t ∈ Set.Ioc (-π) π) :
    atan2 (Real.sin t) (Real.cos t) = t := by
  unfold atan2
  rw [Complex.ofReal_cos, Complex.ofReal_sin]
  exact Complex.arg_cos_add_sin_mul_I ht

theorem max_weight_particles_ne_nil (xs : List Pose) (ws : List ℚ)
    (hlen : ws.length = xs.length) (hne : ws ≠ []) :
    max_weight_particles xs ws ≠ [] := by
  cases hmax : ws.max? with
  | none => exact absurd (List.max?_eq_none_iff.mp hmax) hne
  | some a =>
    obtain ⟨⟨i, hi⟩, hget⟩ :=
      List.mem_iff_get.mp (List.max?_mem max_choice hmax)
    have hix : i < xs.length := hlen ▸ hi
    have hzi : i < (xs.zip ws).length := by
      rw [List.length_zip, hlen, min_self]
      exact hix
    have hmem : (xs.get ⟨i, hix⟩, ws.get ⟨i, hi⟩) ∈ xs.zip ws := by
      have hz : (xs.zip ws)[i]? = some (xs.get ⟨i, hix⟩, ws.get ⟨i, hi⟩) := by
        rw [List.getElem?_zip_eq_some]
        constructor
        · rw [List.getElem?_eq_getElem hix]
          rfl
        · rw [List.getElem?_eq_getElem hi]
          rfl
      exact List.getElem?_mem hz
    apply List.ne_nil_of_mem (a := xs.get ⟨i, hix⟩)
    unfold max_weight_particles
    refine List.mem_map.mpr ⟨(xs.get ⟨i, hix⟩, ws.get ⟨i, hi⟩), ?_, rfl⟩
    rw [List.mem_filter]
    refine ⟨hmem, ?_⟩
    rw [hmax]
    simp only [Option.getD_some, decide_eq_true_eq]
    simpa using hget

/-- Claim C6 counterexample: a single particle with unwrapped heading
`θ = 2π` and weight 1.  The estimator returns heading
`arctan2(sin 2π / 1, cos 2π / 1) = arctan2(0, 1) = 0 ≠ 2π`, so for a
single maximal-weight particle the returned heading does not in general
equal that particle's heading. -/
theorem C6_counterexample :
    max_weight_particles [⟨0, 0, 2 * π⟩] [1] = [⟨0, 0, 2 * π⟩] ∧
    (pf_x [⟨0, 0, 2 * π⟩] [1]).th = 0 ∧
    (pf_x [⟨0, 0, 2 * π⟩] [1]).th ≠ (⟨0, 0, 2 * π⟩ : Pose).th := by
  have hsel : max_weight_particles [⟨0, 0, 2 * π⟩] [1] = [⟨0, 0, 2 * π⟩] := by
    unfold max_weight_particles
    simp
  have hth : (pf_x [⟨0, 0, 2 * π⟩] [1]).th = 0 := by
    unfold pf_x
    dsimp only
    rw [hsel]
    simp only [List.map_cons, List.map_nil, List.sum_cons, List.sum_nil,
      List.length_cons, List.length_nil, Nat.cast_one, add_zero]
    rw [Real.sin_two_pi, Real.cos_two_pi]
    unfold atan2
    norm_num [Complex.arg_one]
  refine ⟨hsel, hth, ?_⟩
  rw [hth]
  intro h
  have := Real.pi_pos
  dsimp only at h
  linarith

/-- Claim C6 as amended: for every particle set with `M ≥ 1`, the
estimator returns the arithmetic mean of `(x, y)` over exactly the set `S`
of particles whose weight equals the maximum weight (all ties included —
`S` is nonempty because the maximum is attained), and a heading equal to
`arctan2(mean of sin θ over S, mean of cos θ over S)`; for a single
maximal-weight particle the returned heading equals that particle's
heading provided the heading lies in `(−π, π]` (in general it equals the
heading only up to wrapping into `(−π, π]`, see the counterexample). -/
theorem C6_amended (xs : List Pose) (ws : List ℚ)
    (hlen : ws.length = xs.length) (hne : ws ≠ []) :
    max_weight_particles xs ws ≠ [] ∧
    (∀ q ∈ xs.zip ws, q.2 = ws.max?.getD 0 →
      q.1 ∈ max_weight_particles xs ws) ∧
    (pf_x xs ws).x =
      ((max_weight_particles xs ws).map Pose.x).sum /
        ((max_weight_particles xs ws).length : ℝ) ∧
    (pf_x xs ws).y =
      ((max_weight_particles xs ws).map Pose.y).sum /
        ((max_weight_particles xs ws).length : ℝ) ∧
    (pf_x xs ws).th =
      atan2
        (((max_weight_particles xs ws).map (fun p => Real.sin p.th)).sum /
          ((max_weight_particles xs ws).length : ℝ))
        (((max_weight_particles xs ws).map (fun p => Real.cos p.th)).sum /
          ((max_weight_particles xs ws).length : ℝ)) ∧
    ∀ p : Pose, max_weight_particles xs ws = [p] →
      p.th ∈ Set.Ioc (-π) π → (pf_x xs ws).th = p.th := by
  refine ⟨max_weight_particles_ne_nil xs ws hlen hne, ?_, rfl, rfl, rfl, ?_⟩
  · intro q hq hmax
    unfold max_weight_particles
    refine List.mem_map.mpr ⟨q, ?_, rfl⟩
    rw [List.mem_filter]
    exact ⟨hq, by simpa using hmax⟩
  · intro p hsel hp
    unfold pf_x
    dsimp only
    rw [hsel]
    simp only [List.map_cons, List.map_nil, List.sum_cons, List.sum_nil,
      List.length_cons, List.length_nil, zero_add, Nat.cast_one, add_zero,
      div_one]
    exact atan2_sin_cos p.th hp

/-- Witness for C6 (amended) at a concrete input: a single particle at the
origin with weight 1, whose heading `0` lies in `(−π, π]`. -/
theorem C6_amended_witness :
    (([1] : List ℚ).length = [(⟨0, 0, 0⟩ : Pose)].length ∧
      ([1] : List ℚ) ≠ []) ∧
    (max_weight_particles [⟨0, 0, 0⟩] [1] ≠ [] ∧
     (∀ q ∈ [(⟨0, 0, 0⟩ : Pose)].zip ([1] : List ℚ),
       q.2 = ([1] : List ℚ).max?.getD 0 →
       q.1 ∈ max_weight_particles [⟨0, 0, 0⟩] [1]) ∧
     (pf_x [⟨0, 0, 0⟩] [1]).x =
       ((max_weight_particles [⟨0, 0, 0⟩] [1]).map Pose.x).sum /
         ((max_weight_particles [⟨0, 0, 0⟩] [1]).length : ℝ) ∧
     (pf_x [⟨0, 0, 0⟩] [1]).y =
       ((max_weight_particles [⟨0, 0, 0⟩] [1]).map Pose.y).sum /
         ((max_weight_particles [⟨0, 0, 0⟩] [1]).length : ℝ) ∧
     (pf_x [⟨0, 0, 0⟩] [1]).th =
       atan2
         (((max_weight_particles [⟨0, 0, 0⟩] [1]).map
             (fun p => Real.sin p.th)).sum /
           ((max_weight_particles [⟨0, 0, 0⟩] [1]).length : ℝ))
         (((max_weight_particles [⟨0, 0, 0⟩] [1]).map
             (fun p => Real.cos p.th)).sum /
           ((max_weight_particles [⟨0, 0, 0⟩] [1]).length : ℝ)) ∧
     ∀ p : Pose, max_weight_particles [⟨0, 0, 0⟩] [1] = [p] →
       p.th ∈ Set.Ioc (-π) π → (pf_x [⟨0, 0, 0⟩] [1]).th = p.th) :=
  ⟨⟨rfl, by simp⟩, C6_amended [⟨0, 0, 0⟩] [1] rfl (by simp)⟩

theorem resample_fst_length {α : Type} [Inhabited α] (xs : List α)
    (ws : List ℚ) (r : ℚ) : (resample xs ws r).1.length = xs.length := by
  rw [resample_eq]
  simp

theorem resample_snd_length {α : Type} [Inhabited α] (xs : List α)
    (ws : List ℚ) (r : ℚ) : (resample xs ws r).2.length = xs.length := by
  rw [resample_eq]
  simp

theorem transition_model_length (xs : List Pose) (us : List (ℝ × ℝ))
    (dt : ℝ) (hlen : us.length = xs.length) :
    (transition_model xs us dt).length = xs.length := by
  rw [transition_model, List.length_map, List.length_zip, hlen, min_self]

/-- Claim C10: from construction onward the filter maintains the invariant
that the particle list has length `M` and the weight list has length `M`,
with `M` fixed at construction: `pf_init` establishes it, and
`transition_update` (full pose replacement with `M` noisy controls),
`resample` (the state mutation of `ParticleFilter.resample`) and
`measurement_update` each preserve it, never changing `M`. -/
theorem C10_shape_invariant :
    (∀ (x0 : List Pose) (R : Mat2),
      (pf_init x0 R).M = x0.length ∧
      (pf_init x0 R).xs.length = (pf_init x0 R).M ∧
      (pf_init x0 R).ws.length = (pf_init x0 R).M) ∧
    (∀ (st : PFState) (us : List (ℝ × ℝ)) (dt : ℝ),
      st.xs.length = st.M → st.ws.length = st.M → us.length = st.M →
      (transition_update st us dt).M = st.M ∧
      (transition_update st us dt).xs.length = st.M ∧
      (transition_update st us dt).ws.length = st.M) ∧
    (∀ (st : PFState) (xs : List Pose) (ws : List ℚ) (r : ℚ),
      xs.length = st.M →
      (resample_update st xs ws r).M = st.M ∧
      (resample_update st xs ws r).xs.length = st.M ∧
      (resample_update st xs ws r).ws.length = st.M) ∧
    ∀ (st : PFState) (map_lines : List (ℝ × ℝ)) (tf : Pose) (g : ℝ)
      (zs : List (ℝ × ℝ)) (Qs : List Mat2) (pdf : List ℝ → ℚ) (r : ℚ),
      st.xs.length = st.M →
      (measurement_update st map_lines tf g zs Qs pdf r).M = st.M ∧
      (measurement_update st map_lines tf g zs Qs pdf r).xs.length = st.M ∧
      (measurement_update st map_lines tf g zs Qs pdf r).ws.length = st.M := by
  refine ⟨?_, ?_, ?_, ?_⟩
  · intro x0 R
    refine ⟨rfl, rfl, ?_⟩
    simp [pf_init]
  · intro st us dt hxs hws hus
    refine ⟨rfl, ?_, ?_⟩
    · rw [transition_update]
      dsimp only
      rw [transition_model_length st.xs us dt (by rw [hus, hxs]), hxs]
    · exact hws
  · intro st xs ws r hxs
    refine ⟨rfl, ?_, ?_⟩
    · rw [resample_update]
      dsimp only
      rw [resample_fst_length, hxs]
    · rw [resample_update]
      dsimp only
      rw [resample_snd_length, hxs]
  · intro st map_lines tf g zs Qs pdf r hxs
    refine ⟨rfl, ?_, ?_⟩
    · simp only [measurement_update, resample_update]
      rw [resample_fst_length, hxs]
    · simp only [measurement_update, resample_update]
      rw [resample_snd_length, hxs]

/-- Witness for C10 at a concrete state: one particle, identity `R`,
control `(0, 0)`, no map lines and no observations. -/
theorem C10_shape_invariant_witness :
    ((pf_init [(⟨0, 0, 0⟩ : Pose)] ⟨1, 0, 0, 1⟩).xs.length =
        (pf_init [(⟨0, 0, 0⟩ : Pose)] ⟨1, 0, 0, 1⟩).M ∧
     (pf_init [(⟨0, 0, 0⟩ : Pose)] ⟨1, 0, 0, 1⟩).ws.length =
        (pf_init [(⟨0, 0, 0⟩ : Pose)] ⟨1, 0, 0, 1⟩).M ∧
     [((0 : ℝ), (0 : ℝ))].length =
        (pf_init [(⟨0, 0, 0⟩ : Pose)] ⟨1, 0, 0, 1⟩).M) ∧
    ((transition_update (pf_init [⟨0, 0, 0⟩] ⟨1, 0, 0, 1⟩)
        [((0 : ℝ), (0 : ℝ))] 1).xs.length =
      (pf_init [(⟨0, 0, 0⟩ : Pose)] ⟨1, 0, 0, 1⟩).M) ∧
    ((resample_update (pf_init [⟨0, 0, 0⟩] ⟨1, 0, 0, 1⟩) [⟨0, 0, 0⟩] [1]
        0).xs.length = (pf_init [(⟨0, 0, 0⟩ : Pose)] ⟨1, 0, 0, 1⟩).M) ∧
    (measurement_update (pf_init [⟨0, 0, 0⟩] ⟨1, 0, 0, 1⟩) [] ⟨0, 0, 0⟩ 0
        [] [] (fun v => 1) 0).ws.length =
      (pf_init [(⟨0, 0, 0⟩ : Pose)] ⟨1, 0, 0, 1⟩).M := by
  refine ⟨⟨?_, ?_, ?_⟩, ?_, ?_, ?_⟩
  · exact (C10_shape_invariant.1 [⟨0, 0, 0⟩] ⟨1, 0, 0, 1⟩).2.1
  · exact (C10_shape_invariant.1 [⟨0, 0, 0⟩] ⟨1, 0, 0, 1⟩).2.2
  · rfl
  · exact ((C10_shape_invariant.2.1 (pf_init [⟨0, 0, 0⟩] ⟨1, 0, 0, 1⟩)
      [((0 : ℝ), (0 : ℝ))] 1) rfl (by simp [pf_init]) rfl).2.1
  · exact ((C10_shape_invariant.2.2.1 (pf_init [⟨0, 0, 0⟩] ⟨1, 0, 0, 1⟩)
      [⟨0, 0, 0⟩] [1] 0) rfl).2.1
  · exact ((C10_shape_invariant.2.2.2 (pf_init [⟨0, 0, 0⟩] ⟨1, 0, 0, 1⟩)
      [] ⟨0, 0, 0⟩ 0 [] [] (fun v => 1) 0) rfl).2.2
